import Mathlib

/-!
Verification development for the tensorforce repository.

The central object is the prioritized experience-replay store
(`tensorforce/core/memories/prioritized_replay.py`).  Its state is embedded
faithfully: the list `observations` of `(priority, observation)` pairs, the
boundary `none_priority_index` (an integer, as in Python), the outstanding
`batch_indices` (list of Python ints, hence `List ℤ`), and the pending
`last_observation`.  Observation payloads are kept opaque (a type parameter
`α`); the operation-sequence model instantiates `α := ℕ`, tagging each stored
transition with the index of the `add_observation` call that produced it, so
that insertion order is expressible.

Python-specific behaviours are embedded explicitly: `list.insert` /
`list.pop` / indexing with negative-index and clamping semantics, the `for`
loop of `update_batch` iterating over a list that is mutated during
iteration (a live iterator with a position counter), exceptions as an
`Option String` error component (a raised exception aborts the method,
leaving exactly the mutations performed so far), and `random.random` /
`random.randrange` as explicit oracles.  Rejection-sampling `while` loops,
which need not terminate in Python, take a fuel parameter; exhausted fuel is
reported as an error and leaves the state as it was, mirroring the fact
that a non-terminating call never returns.  Floats are idealized as `ℚ`,
and `loss ** prioritization_weight` is abstracted as a parameter
`pz : ℚ → ℚ` applied to the loss.
-/

namespace Tensorforce

/-! ### Python list primitives -/

/-- Resolve a Python list index (which may be negative, counting from the
end) to a position, or `none` for an `IndexError`. -/
def pyPos (len : ℕ) (i : ℤ) : Option ℕ :=
  if 0 ≤ i then (if i < (len : ℤ) then some i.toNat else none)
  else (if 0 ≤ (len : ℤ) + i then some ((len : ℤ) + i).toNat else none)

/-- Python `l[i]` (with negative-index semantics); `none` is an `IndexError`. -/
def pyGet (l : List β) (i : ℤ) : Option β :=
  (pyPos l.length i).bind l.get?

/-- The position at which Python `l.insert(i, x)` places `x`: negative
indices count from the end and are clamped at 0, positive ones at `len`. -/
def pyInsertPos (idx : ℤ) (len : ℕ) : ℕ :=
  if idx < 0 then ((len : ℤ) + idx).toNat else min idx.toNat len

/-- Python `l.insert(idx, x)` (total: Python's insert never raises). -/
def pyInsert (l : List β) (idx : ℤ) (x : β) : List β :=
  l.insertIdx (pyInsertPos idx l.length) x

/-! ### Stable sorting (Python `sorted`)

Python's `sorted` is a stable ascending sort; a stable sort is uniquely
determined by the order, so an insertion sort that places each element after
existing elements it does not strictly precede is an exact model. -/

/-- Insert `x` into `l`, after every element `y` with `le y x`. -/
def insOrd (le : β → β → Bool) (x : β) : List β → List β
  | [] => [x]
  | y :: ys => if le y x then y :: insOrd le x ys else x :: y :: ys

/-- Stable sort with respect to `le` (Python `sorted(l, key/cmp ...)`). -/
def pySorted (le : β → β → Bool) (l : List β) : List β :=
  l.foldl (fun acc x => insOrd le x acc) []

/-! ### The prioritized replay store: state -/

/-- State of `PrioritizedReplay` (`prioritized_replay.py`).  `capacity`,
`states_config` and `actions_config` come from the `Memory` base class
(whose file is not among the sources; the spec describes the store as
"created with fixed capacity and shape/dtype schemas" — only `capacity`
influences behaviour, the schemas only shape the packed arrays).
`internalsSet` records whether `internals_config` has been set (it is
`None` until the first `add_observation` carrying a non-`None` `internal`,
and `get_batch` crashes while it is unset). -/
structure PRMemory (α : Type) where
  capacity : ℕ
  observations : List (Option ℚ × α)
  nonePriorityIndex : ℤ
  batchIndices : Option (List ℤ)
  lastObservation : Option α
  internalsSet : Bool
deriving Repr, DecidableEq

/-- Modelled from the spec: `util.epsilon` (`util.py` is not among the
sources; §9 of the spec calls it "a hardcoded ε-mass threshold", i.e. a
small positive constant). -/
def epsilon : ℚ := 1 / 1000000

/-- A fresh store, as built by `PrioritizedReplay.__init__`. -/
def initMem (cap : ℕ) : PRMemory ℕ :=
  { capacity := cap
    observations := []
    nonePriorityIndex := 0
    batchIndices := none
    lastObservation := none
    internalsSet := false }

/-! ### add_observation -/

/-- Embeds `PrioritizedReplay.add_observation`.  `fin prev x` stands for
`self.last_observation + (state,)`, the finalized transition built from the
pending observation and the newly arrived one; `ig` is whether `internal`
is not `None`.  Returns the new state and an optional raised exception
(the exception aborts the method, so `last_observation` is not updated in
that case). -/
def addObservation (fin : α → α → α) (m : PRMemory α) (x : α) (ig : Bool) :
    PRMemory α × Option String :=
  let m1 := { m with internalsSet := m.internalsSet || ig }
  match m1.lastObservation with
  | none => ({ m1 with lastObservation := some x }, none)
  | some prev =>
    let obs := fin prev x
    if m1.observations.length < m1.capacity then
      ({ m1 with
          observations := m1.observations ++ [(none, obs)]
          lastObservation := some x }, none)
    else if 0 < m1.nonePriorityIndex then
      match pyPos m1.observations.length (m1.nonePriorityIndex - 1) with
      | none => (m1, some "IndexError: pop index out of range")
      | some p =>
        ({ m1 with
            observations := m1.observations.eraseIdx p ++ [(none, obs)]
            nonePriorityIndex := m1.nonePriorityIndex - 1
            lastObservation := some x }, none)
    else
      (m1, some "Memory contains only unseen observations.")

/-! ### get_batch -/

/-- Oracles for `random.random()` (a rational in `[0,1)`; left
unconstrained) and `random.randrange(k)` (reduced mod `k`). -/
structure RandSrc where
  floats : ℕ → ℚ
  ints : ℕ → ℕ

/-- Mutable locals of one `get_batch` call: the growing `batch_indices`,
`not_sampled_index`, the `observation` variable (unbound before its first
assignment — reading it while `none` is a `NameError`), the numbers of
random floats / ints consumed, and the packed batch contents gathered so
far. -/
structure DrawState (α : Type) where
  bi : List ℤ
  notSampled : ℤ
  obsVar : Option α
  fc : ℕ
  ic : ℕ
  out : List α
deriving Repr

/-- Total priority mass `sum(priority for priority, _ in observations if
priority is not None)`. -/
def prioritySum (obs : List (Option ℚ × α)) : ℚ :=
  obs.foldr (fun e s => match e.1 with | none => s | some p => p + s) 0

/-- The inner `for index, (priority, observation) in enumerate(...)` scan of
roulette-wheel sampling, starting at index `i` with running `sample`.
Returns the `(index, observation)` pair left in those variables when the
loop exits (by `break` or by exhaustion), or `none` for the `TypeError`
raised on subtracting a `None` priority. -/
def rouletteScan (npi : ℤ) (s : ℚ) (i : ℕ) :
    List (Option ℚ × α) → ℚ → Option (ℕ × α)
  | [], _ => none
  | (p?, a) :: rest, sample =>
    match p? with
    | none => none
    | some p =>
      let sample1 := sample - p / s
      if sample1 < 0 ∨ (i : ℤ) ≥ npi ∨ rest.isEmpty then some (i, a)
      else rouletteScan npi s (i + 1) rest sample1

/-- The `while True` retry loop of roulette-wheel sampling; draws a fresh
`random()` each attempt and accepts an index not already in
`batch_indices`.  `none` = `TypeError`/`NameError` inside the scan, or
fuel exhausted (a loop that never accepts never returns). -/
def rouletteLoop (obs : List (Option ℚ × α)) (npi : ℤ) (s : ℚ)
    (rng : RandSrc) (bi : List ℤ) : ℕ → ℕ → Option (ℕ × α × ℕ)
  | 0, _ => none
  | fuel + 1, fc =>
    match rouletteScan npi s 0 obs (rng.floats fc) with
    | none => none
    | some (i, a) =>
      if (i : ℤ) ∈ bi then rouletteLoop obs npi s rng bi fuel (fc + 1)
      else some (i, a, fc + 1)

/-- The `index = randrange(npi); while index in batch_indices: ...` loop of
the negligible-mass fallback.  `none` = fuel exhausted. -/
def rejectLoop (npi : ℕ) (rng : RandSrc) (bi : List ℤ) :
    ℕ → ℕ → Option (ℕ × ℕ)
  | 0, _ => none
  | fuel + 1, ic =>
    let j := rng.ints ic % npi
    if (j : ℤ) ∈ bi then rejectLoop npi rng bi fuel (ic + 1)
    else some (j, ic + 1)

/-- One iteration of `get_batch`'s sampling loop (one batch slot). -/
def drawOne (m : PRMemory α) (s : ℚ) (rng : RandSrc) (fuel : ℕ)
    (ds : DrawState α) : DrawState α × Option String :=
  if ds.notSampled < (m.observations.length : ℤ) then
    match pyGet m.observations ds.notSampled with
    | none => (ds, some "IndexError")
    | some e =>
      ({ ds with
          obsVar := some e.2
          notSampled := ds.notSampled + 1
          out := ds.out ++ [e.2]
          bi := ds.bi ++ [ds.notSampled] }, none)
  else if m.capacity = 0 then
    (ds, some "ZeroDivisionError: division by zero")
  else if s / (m.capacity : ℚ) < epsilon then
    if m.nonePriorityIndex ≤ 0 then
      (ds, some "ValueError: empty range for randrange")
    else
      match rejectLoop m.nonePriorityIndex.toNat rng ds.bi fuel ds.ic with
      | none => (ds, some "model: rejection sampling fuel exhausted")
      | some (j, ic1) =>
        match ds.obsVar with
        | none => ({ ds with ic := ic1 }, some "NameError: observation")
        | some a =>
          ({ ds with
              ic := ic1
              out := ds.out ++ [a]
              bi := ds.bi ++ [(j : ℤ)] }, none)
  else
    match rouletteLoop m.observations m.nonePriorityIndex s rng ds.bi fuel ds.fc with
    | none => (ds, some "model: roulette sampling failed or fuel exhausted")
    | some (j, a, fc1) =>
      ({ ds with
          fc := fc1
          obsVar := some a
          out := ds.out ++ [a]
          bi := ds.bi ++ [(j : ℤ)] }, none)

/-- The `for n in xrange(batch_size)` loop: run the draws, stopping at the first
raised exception. -/
def drawLoop (m : PRMemory α) (s : ℚ) (rng : RandSrc) (fuel : ℕ) :
    ℕ → DrawState α → DrawState α × Option String
  | 0, ds => (ds, none)
  | n + 1, ds =>
    match drawOne m s rng fuel ds with
    | (ds1, none) => drawLoop m s rng fuel n ds1
    | (ds1, some e) => (ds1, some e)

/-- Embeds `PrioritizedReplay.get_batch`.  Crashes up front (state untouched) when
`internals_config` is still `None`; otherwise `self.batch_indices` is bound
to a fresh list which holds whatever indices were appended before a
mid-loop exception, exactly as the Python object would.  Returns the new
state, the optional exception, and the sampled observations. -/
def getBatch (m : PRMemory α) (batchSize : ℕ) (rng : RandSrc) (fuel : ℕ) :
    PRMemory α × Option String × List α :=
  if m.internalsSet = false then
    (m, some "TypeError: internals_config is None", [])
  else
    let r := drawLoop m (prioritySum m.observations) rng fuel batchSize
      { bi := [], notSampled := m.nonePriorityIndex, obsVar := none
        fc := 0, ic := 0, out := [] }
    ({ m with batchIndices := some r.1.bi }, r.2, r.1.out)

/-! ### update_batch -/

/-- The comparison `update_priority < priority` where `priority` may be `None`; the `None`
case is unreachable for partition-respecting states (and Python 2, which
this code also targets, makes `float < None` false). -/
def ltOpt (x : ℚ) : Option ℚ → Bool
  | none => false
  | some p => decide (x < p)

/-- The first loop of `update_batch`: `updated = [(loss ** w, observation)
for index, loss in zip(batch_indices, loss_per_instance)]`, reading
`observations[index]`; `none` is the `IndexError` on a stale index. -/
def buildUpdated (pz : ℚ → ℚ) (obs : List (Option ℚ × α)) :
    List ℤ → List ℚ → Option (List (ℚ × α))
  | [], _ => some []
  | _ :: _, [] => some []
  | i :: is, l :: ls =>
    match pyGet obs i with
    | none => none
    | some e => (buildUpdated pz obs is ls).map (fun r => (pz l, e.2) :: r)

/-- The removal loop: `for index in sorted(batch_indices, reverse=True):
pop(index); none_priority_index -= (priority is not None)`.  Stops at the
first `IndexError`, returning the mutations performed so far. -/
def removeAll : List (Option ℚ × α) → ℤ → List ℤ →
    List (Option ℚ × α) × ℤ × Option String
  | obs, npi, [] => (obs, npi, none)
  | obs, npi, i :: is =>
    match pyPos obs.length i with
    | none => (obs, npi, some "IndexError: pop index out of range")
    | some p =>
      match obs.get? p with
      | none => (obs, npi, some "IndexError: pop index out of range")
      | some e =>
        removeAll (obs.eraseIdx p)
          (npi - (if e.1.isSome then 1 else 0)) is

/-- The reinsertion `for ... in iter(self.observations)` loop of
`update_batch`, which iterates over the list *while inserting into it*: a
Python list iterator keeps a position counter `c` and yields `obs[c]` as
long as that exists, oblivious to inserts shifting elements.  `idx` is the
loop's `index` variable, `held` the popped `(update_priority,
update_observation)` pair, `upd` the remaining `updated` stack (ascending;
`pop()` takes the last element).  Returns the final list,
`none_priority_index`, `index`, and the stack left for the trailing `while`
loop; on the `index == none_priority_index` break the held pair is
discarded, exactly as in the source.  Structural fuel stands in for the
decreasing measure `obs.length + upd.length + 1 - c`; the wrapper
`insertLoop` always supplies enough. -/
def insertLoopF : ℕ → List (Option ℚ × α) → ℕ → ℤ → ℤ → (ℚ × α) →
    List (ℚ × α) → List (Option ℚ × α) × ℤ × ℤ × List (ℚ × α)
  | 0, obs, _, idx, npi, _, upd => (obs, npi, idx, upd)
  | fuel + 1, obs, c, idx, npi, held, upd =>
    match obs.get? c with
    | none =>
      (pyInsert obs idx (some held.1, held.2), npi + 1, idx, upd)
    | some e =>
      let idx1 := idx + 1
      if idx1 = npi then (obs, npi, idx1, upd)
      else if ltOpt held.1 e.1 then insertLoopF fuel obs (c + 1) idx1 npi held upd
      else
        let obs1 := pyInsert obs idx1 (some held.1, held.2)
        match upd.getLast? with
        | none => (obs1, npi + 1, idx1 + 1, [])
        | some held1 =>
          insertLoopF fuel obs1 (c + 1) (idx1 + 1) (npi + 1) held1 upd.dropLast

/-- The reinsertion loop with adequate fuel. -/
def insertLoop (obs : List (Option ℚ × α)) (c : ℕ) (idx npi : ℤ)
    (held : ℚ × α) (upd : List (ℚ × α)) :
    List (Option ℚ × α) × ℤ × ℤ × List (ℚ × α) :=
  insertLoopF (obs.length + upd.length + 1 - c) obs c idx npi held upd

/-- The trailing `while updated: observations.insert(index, updated.pop())`
loop (`pop()` from the end, `index` fixed, re-resolved against the growing
list each time). -/
def whileInsert (idx : ℤ) (obs : List (Option ℚ × α)) (npi : ℤ)
    (upd : List (ℚ × α)) : List (Option ℚ × α) × ℤ :=
  upd.reverse.foldl
    (fun st h => (pyInsert st.1 idx (some h.1, h.2), st.2 + 1)) (obs, npi)

/-- Embeds `PrioritizedReplay.update_batch`.  `pz` models `loss ↦ loss **
self.prioritization_weight`.  Exceptions abort the method leaving exactly
the mutations performed so far (in particular the two guard errors leave
the store untouched). -/
def updateBatch (pz : ℚ → ℚ) (m : PRMemory α) (losses : List ℚ) :
    PRMemory α × Option String :=
  match m.batchIndices with
  | none => (m, some "Need to call get_batch before each update_batch call.")
  | some bi =>
    if losses.length ≠ bi.length then
      (m, some "For all instances a loss value has to be provided.")
    else
      match buildUpdated pz m.observations bi losses with
      | none => (m, some "IndexError: list index out of range")
      | some updated0 =>
        let rem := removeAll m.observations m.nonePriorityIndex
          (pySorted (fun a b : ℤ => decide (b ≤ a)) bi)
        match rem.2.2 with
        | some e =>
          ({ m with observations := rem.1, nonePriorityIndex := rem.2.1 }, some e)
        | none =>
          let m1 := { m with observations := rem.1,
                             nonePriorityIndex := rem.2.1,
                             batchIndices := none }
          let updSorted := pySorted (fun a b : ℚ × α => decide (a.1 ≤ b.1)) updated0
          match updSorted.getLast? with
          | none => (m1, some "IndexError: pop from empty list")
          | some held =>
            let r := insertLoop m1.observations 0 (-1) m1.nonePriorityIndex
              held updSorted.dropLast
            let w := whileInsert r.2.2.1 r.1 r.2.1 r.2.2.2
            ({ m1 with observations := w.1, nonePriorityIndex := w.2 }, none)

/-! ### Operation sequences -/

/-- One public operation on the store, with its oracles.  `add` finalizes
and stores the pending observation (if any); the run tags the transition
finalized by the `k`-th operation-list `add` with payload `k`. -/
inductive Op where
  | add (ig : Bool)
  | get (batchSize : ℕ) (rng : RandSrc) (fuel : ℕ)
  | update (losses : List ℚ)

/-- One step of the operation-sequence model; the second component counts
`add` calls, providing fresh payload tags. -/
def stepOp (pz : ℚ → ℚ) (st : PRMemory ℕ × ℕ) : Op → PRMemory ℕ × ℕ
  | .add ig => ((addObservation (fun _ _ => st.2) st.1 st.2 ig).1, st.2 + 1)
  | .get bs rng fuel => ((getBatch st.1 bs rng fuel).1, st.2)
  | .update ls => ((updateBatch pz st.1 ls).1, st.2)

/-- The store after a sequence of operations on a fresh store. -/
def runOps (pz : ℚ → ℚ) (cap : ℕ) (ops : List Op) : PRMemory ℕ :=
  (ops.foldl (stepOp pz) (initMem cap, 0)).1

/-! ### Policy-gradient reward estimation (`policy_gradient_model.py`) -/

/-- Modelled from the spec: `util.cumulative_discount` (`util.py` is not
among the sources; the spec describes it as the "per-step discounted return
via cumulative backward discount (reset at each terminal boundary)"):
`out[t] = v[t] + d * (if terminal[t] then 0 else out[t+1])`. -/
def cumulativeDiscount : List ℚ → List Bool → ℚ → List ℚ
  | [], _, _ => []
  | v :: vs, ts, d =>
    let r := cumulativeDiscount vs ts.tail d
    (v + d * (if ts.headD false then 0 else r.headD 0)) :: r

/-- The `td_residuals` array computed by
`PolicyGradientModel.reward_estimation` when `gae_rewards` is set:
`rewards + [γ·V[n+1] − V[n] if (n < len(V) − 1 and not terminal) else 0.0
for n, terminal in enumerate(terminals)]`. -/
def tdResiduals (γ : ℚ) (rewards : List ℚ) (terminals : List Bool)
    (v : List ℚ) : List ℚ :=
  (List.range terminals.length).map fun n =>
    rewards.getD n 0 +
      (if n + 1 < v.length ∧ terminals.getD n false = false then
        γ * v.getD (n + 1) 0 - v.getD n 0
      else 0)

/-- The GAE advantages computed by `reward_estimation`:
`cumulative_discount(td_residuals, terminals, γ·λ)`. -/
def gaeAdvantage (γ lam : ℚ) (rewards : List ℚ) (terminals : List Bool)
    (v : List ℚ) : List ℚ :=
  cumulativeDiscount (tdResiduals γ rewards terminals v) terminals (γ * lam)

/-- The one-step TD residual exactly as the spec defines it:
`δ_t = r_t + γ·V(s_{t+1})·[not terminal] − V(s_t)`. -/
def tdResidualSpec (γ : ℚ) (rewards : List ℚ) (terminals : List Bool)
    (v : List ℚ) : List ℚ :=
  (List.range terminals.length).map fun n =>
    rewards.getD n 0 +
      (if terminals.getD n false then 0 else γ * v.getD (n + 1) 0) -
      v.getD n 0

/-- The non-GAE advantage of `reward_estimation`:
`discounted_rewards - state_values` (elementwise). -/
def returnMinusBaseline (γ : ℚ) (rewards : List ℚ) (terminals : List Bool)
    (v : List ℚ) : List ℚ :=
  (cumulativeDiscount rewards terminals γ).zipWith (fun a b => a - b) v

/-! ### DQFD agent construction (`dqfd_agent.py`) -/

/-- Python `int(q)`: truncation toward zero. -/
def ratTrunc (q : ℚ) : ℤ :=
  if 0 ≤ q then ⌊q⌋ else -⌊-q⌋

/-- Computes `self.demo_batch_size = int(demo_sampling_ratio * batch_size /
(1.0 - demo_sampling_ratio))`. -/
def demoBatchSize (p batchSize : ℚ) : ℤ :=
  ratTrunc (p * batchSize / (1 - p))

/-- The construction-time derivation and assertion in `DQFDAgent.__init__`:
`assert self.demo_batch_size > 0`.  Returns the derived size or the
assertion failure. -/
def dqfdDemoSetup (p batchSize : ℚ) : Except String ℤ :=
  let d := demoBatchSize p batchSize
  if 0 < d then .ok d
  else .error "Check DQFD sampling parameters to make sure demo_batch_size is positive."

/-! ### The partition invariant

What actually holds of the store (and is proved below to be preserved by
every operation): the *prioritized* entries form the prefix
`[0, none_priority_index)` and the *unseen* (`None`-priority) entries form
the suffix, in insertion order.  (The spec asserts the mirror image.)
Payload tags record insertion order; `cnt` bounds the tags in use. -/

/-- Partition invariant of an observation list together with
`none_priority_index`: a prioritized prefix `P` and an unseen suffix `U`
whose payload tags strictly increase (insertion order), all tags below
`cnt`. -/
def PartInv (obs : List (Option ℚ × ℕ)) (npi : ℤ) (cnt : ℕ) : Prop :=
  ∃ P U : List (Option ℚ × ℕ),
    obs = P ++ U ∧ npi = (P.length : ℤ) ∧
    (∀ e ∈ P, e.1 ≠ none) ∧ (∀ e ∈ U, e.1 = none) ∧
    (U.map Prod.snd).Pairwise (· < ·) ∧
    (∀ e ∈ obs, e.2 < cnt)

/-- The outstanding batch indices, when present, are distinct and in
range. -/
def BIInv (m : PRMemory ℕ) : Prop :=
  ∀ l, m.batchIndices = some l →
    l.Nodup ∧ ∀ i ∈ l, 0 ≤ i ∧ i < (m.observations.length : ℤ)

/-- Full store invariant. -/
def MemInv (m : PRMemory ℕ) (cnt : ℕ) : Prop :=
  PartInv m.observations m.nonePriorityIndex cnt ∧ BIInv m

theorem PartInv_bounds {obs : List (Option ℚ × ℕ)} {npi : ℤ} {cnt : ℕ}
    (h : PartInv obs npi cnt) : 0 ≤ npi ∧ npi ≤ (obs.length : ℤ) := by
  obtain ⟨P, U, rfl, rfl, -⟩ := h
  simp

theorem PartInv_mono {obs : List (Option ℚ × ℕ)} {npi : ℤ} {cnt cnt' : ℕ}
    (h : PartInv obs npi cnt) (hc : cnt ≤ cnt') : PartInv obs npi cnt' := by
  obtain ⟨P, U, h1, h2, h3, h4, h5, h6⟩ := h
  exact ⟨P, U, h1, h2, h3, h4, h5, fun e he => lt_of_lt_of_le (h6 e he) hc⟩

/-! ### List helper lemmas -/

theorem insertIdx_append_left (x : β) :
    ∀ (P : List β) (U : List β) (p : ℕ), p ≤ P.length →
      (P ++ U).insertIdx p x = P.insertIdx p x ++ U := by
  intro P
  induction P with
  | nil =>
    intro U p hp
    have : p = 0 := Nat.le_zero.mp hp
    subst this
    rfl
  | cons a P ih =>
    intro U p hp
    cases p with
    | zero => rfl
    | succ q =>
      simp only [List.cons_append, List.insertIdx_succ_cons]
      rw [ih U q (by simpa using hp)]

/-- Inserting a prioritized entry at a position `0 ≤ idx ≤ npi` (Python
`insert` with a nonnegative index) keeps the partition, growing the
prioritized prefix. -/
theorem PartInv_insertP {obs : List (Option ℚ × ℕ)} {npi : ℤ} {cnt : ℕ}
    {idx : ℤ} {q : ℚ} {a : ℕ} (h : PartInv obs npi cnt)
    (h0 : 0 ≤ idx) (h1 : idx ≤ npi) (ha : a < cnt) :
    PartInv (pyInsert obs idx (some q, a)) (npi + 1) cnt := by
  obtain ⟨P, U, rfl, hnpi, hP, hU, hord, htag⟩ := h
  have hple : idx.toNat ≤ P.length := by omega
  have hpos : pyInsertPos idx (P ++ U).length = idx.toNat := by
    simp only [pyInsertPos, if_neg (by omega : ¬ idx < 0)]
    simp only [List.length_append]
    omega
  refine ⟨P.insertIdx idx.toNat (some q, a), U, ?_, ?_, ?_, hU, hord, ?_⟩
  · rw [pyInsert, hpos, insertIdx_append_left _ _ _ _ hple]
  · rw [List.length_insertIdx _ _ hple]
    omega
  · intro e he
    rcases (List.mem_insertIdx hple).mp he with h | h
    · subst h; simp
    · exact hP e h
  · intro e he
    rw [pyInsert, hpos, insertIdx_append_left _ _ _ _ hple] at he
    rcases List.mem_append.mp he with h | h
    · rcases (List.mem_insertIdx hple).mp h with h | h
      · subst h; exact ha
      · exact htag e (List.mem_append.mpr (Or.inl h))
    · exact htag e (List.mem_append.mpr (Or.inr h))

/-- Python `insert(-1, x)` on a list whose unseen suffix is empty keeps the
partition (this is the only situation in which the trailing `while` loop of
`update_batch` runs with `index = -1`). -/
theorem PartInv_insertNeg {obs : List (Option ℚ × ℕ)} {npi : ℤ} {cnt : ℕ}
    {q : ℚ} {a : ℕ} (h : PartInv obs npi cnt)
    (hlen : (obs.length : ℤ) ≤ npi) (ha : a < cnt) :
    PartInv (pyInsert obs (-1) (some q, a)) (npi + 1) cnt ∧
      ((pyInsert obs (-1) (some q, a)).length : ℤ) ≤ npi + 1 := by
  obtain ⟨P, U, rfl, hnpi, hP, hU, hord, htag⟩ := h
  have hU0 : U = [] := by
    rw [List.length_append] at hlen
    refine List.length_eq_zero.mp ?_
    omega
  subst hU0
  have hpos : pyInsertPos (-1) (P ++ []).length = ((P.length : ℤ) - 1).toNat := by
    simp only [pyInsertPos, if_pos (by omega : (-1 : ℤ) < 0), List.append_nil]
    omega
  have hple : ((P.length : ℤ) - 1).toNat ≤ P.length := by omega
  have hform : pyInsert (P ++ []) (-1) (some q, a)
      = P.insertIdx ((P.length : ℤ) - 1).toNat (some q, a) ++ [] := by
    rw [pyInsert, hpos, insertIdx_append_left _ _ _ _ hple]
  constructor
  · refine ⟨P.insertIdx ((P.length : ℤ) - 1).toNat (some q, a), [], hform, ?_, ?_,
      by simp, by simp, ?_⟩
    · rw [List.length_insertIdx _ _ hple]; omega
    · intro e he
      rcases (List.mem_insertIdx hple).mp he with h | h
      · subst h; simp
      · exact hP e h
    · intro e he
      rw [hform] at he
      rcases (List.mem_insertIdx hple).mp (by simpa using he) with h | h
      · subst h; exact ha
      · exact htag e (by simpa using h)
  · rw [hform]
    simp only [List.append_nil, List.length_insertIdx _ _ hple]
    simp at hnpi ⊢
    omega

/-- Popping a valid index: the popped entry exists, the decrement
`none_priority_index -= (priority is not None)` restores the partition, and
the length drops by one. -/
theorem PartInv_pop {obs : List (Option ℚ × ℕ)} {npi : ℤ} {cnt : ℕ} {i : ℤ}
    (h : PartInv obs npi cnt) (h0 : 0 ≤ i) (h1 : i < (obs.length : ℤ)) :
    pyPos obs.length i = some i.toNat ∧
    ∃ e, obs.get? i.toNat = some e ∧
      PartInv (obs.eraseIdx i.toNat) (npi - if e.1.isSome then 1 else 0) cnt ∧
      ((obs.eraseIdx i.toNat).length : ℤ) = (obs.length : ℤ) - 1 ∧
      (i < npi → e.1.isSome = true) ∧ (npi ≤ i → e.1 = none) := by
  have hlt : i.toNat < obs.length := by omega
  refine ⟨by simp [pyPos, h0, h1], ?_⟩
  obtain ⟨P, U, rfl, hnpi, hP, hU, hord, htag⟩ := h
  have herase : ∀ e ∈ (P ++ U).eraseIdx i.toNat, e.2 < cnt := fun e he =>
    htag e ((List.eraseIdx_sublist _ _).mem he)
  by_cases hc : i.toNat < P.length
  · obtain ⟨e, he⟩ : ∃ e, P.get? i.toNat = some e := by
      cases hg : P.get? i.toNat with
      | none => exact absurd (List.get?_eq_none.mp hg) (by omega)
      | some e => exact ⟨e, rfl⟩
    have hmem : e ∈ P := List.get?_mem he
    have hsome : e.1.isSome := Option.isSome_iff_ne_none.mpr (hP e hmem)
    refine ⟨e, ?_, ?_, ?_, fun _ => hsome, fun hcon => absurd hcon (by simp at hnpi ⊢; omega)⟩
    · rw [List.get?_append hc, he]
    · rw [List.eraseIdx_append_of_lt_length hc]
      refine ⟨P.eraseIdx i.toNat, U, rfl, ?_, ?_, hU, hord, ?_⟩
      · rw [hsome, if_pos rfl, List.length_eraseIdx, if_pos hc]
        omega
      · exact fun x hx => hP x ((List.eraseIdx_sublist _ _).mem hx)
      · rw [← List.eraseIdx_append_of_lt_length hc]
        exact herase
    · rw [List.length_eraseIdx, if_pos hlt]
      omega
  · push_neg at hc
    obtain ⟨e, he⟩ : ∃ e, U.get? (i.toNat - P.length) = some e := by
      cases hg : U.get? (i.toNat - P.length) with
      | none =>
        have := List.get?_eq_none.mp hg
        simp only [List.length_append] at hlt
        exact absurd this (by omega)
      | some e => exact ⟨e, rfl⟩
    have hmem : e ∈ U := List.get?_mem he
    have hnone : e.1 = none := hU e hmem
    refine ⟨e, ?_, ?_, ?_, fun hcon => absurd hcon (by simp at hnpi ⊢; omega),
      fun _ => hnone⟩
    · rw [List.get?_append_right hc, he]
    · rw [List.eraseIdx_append_of_length_le hc]
      have hsub : (U.eraseIdx (i.toNat - P.length)).Sublist U :=
        List.eraseIdx_sublist _ _
      refine ⟨P, U.eraseIdx (i.toNat - P.length), rfl, ?_, hP, ?_, ?_, ?_⟩
      · rw [hnone]; simpa using hnpi
      · exact fun x hx => hU x (hsub.mem hx)
      · exact (hord.sublist (hsub.map _))
      · rw [← List.eraseIdx_append_of_length_le hc]
        exact herase
    · rw [List.length_eraseIdx, if_pos hlt]
      omega

/-! ### Stable-sort lemmas -/

theorem insOrd_perm (le : β → β → Bool) (x : β) :
    ∀ l : List β, (insOrd le x l).Perm (x :: l) := by
  intro l
  induction l with
  | nil => exact List.Perm.refl _
  | cons y ys ih =>
    simp only [insOrd]
    by_cases h : le y x
    · rw [if_pos h]
      exact (ih.cons y).trans (List.Perm.swap x y ys)
    · rw [if_neg h]

theorem foldl_insOrd_perm (le : β → β → Bool) :
    ∀ (l acc : List β), ((l.foldl (fun a x => insOrd le x a) acc)).Perm (l ++ acc) := by
  intro l
  induction l with
  | nil => intro acc; simp
  | cons x xs ih =>
    intro acc
    simp only [List.foldl_cons, List.cons_append]
    refine (ih (insOrd le x acc)).trans ?_
    refine (List.Perm.append_left xs (insOrd_perm le x acc)).trans ?_
    exact List.perm_middle.trans (List.Perm.refl _)

theorem pySorted_perm (le : β → β → Bool) (l : List β) :
    (pySorted le l).Perm l := by
  simpa using foldl_insOrd_perm le l []

theorem insOrd_sorted_ge (x : ℤ) :
    ∀ l : List ℤ, l.Pairwise (· ≥ ·) →
      (insOrd (fun a b => decide (b ≤ a)) x l).Pairwise (· ≥ ·) := by
  intro l
  induction l with
  | nil => intro _; simp [insOrd]
  | cons y ys ih =>
    intro h
    rw [List.pairwise_cons] at h
    obtain ⟨hy, hys⟩ := h
    simp only [insOrd]
    by_cases hc : x ≤ y
    · rw [if_pos (by simpa using hc)]
      rw [List.pairwise_cons]
      refine ⟨?_, ih hys⟩
      intro z hz
      rcases List.mem_cons.mp ((insOrd_perm _ x ys).mem_iff.mp hz) with h | h
      · subst h; exact hc
      · exact hy z h
    · rw [if_neg (by simpa using hc)]
      rw [List.pairwise_cons]
      refine ⟨?_, List.pairwise_cons.mpr ⟨hy, hys⟩⟩
      intro z hz
      rcases List.mem_cons.mp hz with h | h
      · subst h; omega
      · have := hy z h; omega

theorem pySorted_desc (l : List ℤ) :
    (pySorted (fun a b : ℤ => decide (b ≤ a)) l).Pairwise (· ≥ ·) := by
  have h : ∀ (l acc : List ℤ), acc.Pairwise (· ≥ ·) →
      (l.foldl (fun a x => insOrd (fun a b : ℤ => decide (b ≤ a)) x a) acc).Pairwise
        (· ≥ ·) := by
    intro l
    induction l with
    | nil => intro acc hacc; simpa using hacc
    | cons x xs ih => intro acc hacc; exact ih _ (insOrd_sorted_ge x acc hacc)
  exact h l [] (by simp)

/-! ### update_batch preserves the partition -/

theorem pyInsertPos_le (idx : ℤ) (len : ℕ) : pyInsertPos idx len ≤ len := by
  unfold pyInsertPos
  split
  · omega
  · exact min_le_right _ _

theorem pyInsert_length (l : List β) (idx : ℤ) (x : β) :
    (pyInsert l idx x).length = l.length + 1 :=
  List.length_insertIdx _ _ (pyInsertPos_le idx l.length)

theorem pyGet_mem {l : List β} {i : ℤ} {e : β} (h : pyGet l i = some e) :
    e ∈ l := by
  unfold pyGet at h
  cases hp : pyPos l.length i with
  | none => rw [hp] at h; exact absurd h (by simp)
  | some p => rw [hp] at h; exact List.get?_mem h

theorem buildUpdated_tags (pz : ℚ → ℚ) {cnt : ℕ} :
    ∀ (bi : List ℤ) (ls : List ℚ) (obs : List (Option ℚ × ℕ))
      (u : List (ℚ × ℕ)),
      buildUpdated pz obs bi ls = some u → (∀ e ∈ obs, e.2 < cnt) →
      ∀ e ∈ u, e.2 < cnt := by
  intro bi
  induction bi with
  | nil =>
    intro ls obs u h _
    cases ls <;> simp only [buildUpdated, Option.some.injEq] at h <;> subst h <;> simp
  | cons i is ih =>
    intro ls obs u h htag
    cases ls with
    | nil =>
      simp only [buildUpdated, Option.some.injEq] at h
      subst h; simp
    | cons l rest =>
      simp only [buildUpdated] at h
      cases hg : pyGet obs i with
      | none => rw [hg] at h; exact absurd h (by simp)
      | some e =>
        rw [hg] at h
        cases hr : buildUpdated pz obs is rest with
        | none => rw [hr] at h; exact absurd h (by simp)
        | some u' =>
          rw [hr] at h
          simp only [Option.map_some', Option.some.injEq] at h
          subst h
          intro x hx
          rcases List.mem_cons.mp hx with h | h
          · subst h; exact htag e (pyGet_mem hg)
          · exact ih rest obs u' hr htag x h

theorem removeAll_inv {cnt : ℕ} :
    ∀ (is : List ℤ) (obs : List (Option ℚ × ℕ)) (npi : ℤ),
      PartInv obs npi cnt → is.Pairwise (· > ·) →
      (∀ i ∈ is, 0 ≤ i ∧ i < (obs.length : ℤ)) →
      (removeAll obs npi is).2.2 = none ∧
        PartInv (removeAll obs npi is).1 (removeAll obs npi is).2.1 cnt := by
  intro is
  induction is with
  | nil => intro obs npi h _ _; exact ⟨rfl, h⟩
  | cons i is ih =>
    intro obs npi h hsort hbound
    obtain ⟨h0, h1⟩ := hbound i (List.mem_cons_self i is)
    obtain ⟨hpos, e, hget, hinv, hlen, -, -⟩ := PartInv_pop h h0 h1
    rw [List.pairwise_cons] at hsort
    have hrec := ih (obs.eraseIdx i.toNat)
      (npi - if e.1.isSome then 1 else 0) hinv hsort.2 ?_
    · simp only [removeAll, hpos, hget]
      exact hrec
    · intro j hj
      have := hsort.1 j hj
      have := (hbound j (List.mem_cons_of_mem i hj)).1
      rw [hlen]
      omega

/-- Argument shape in which the trailing `while` loop of `update_batch` is
entered: either a nonnegative insert position inside the prioritized
prefix, or `index = -1` with the unseen suffix empty. -/
def WhileArg (obs : List (Option ℚ × ℕ)) (npi idx : ℤ) : Prop :=
  (0 ≤ idx ∧ idx ≤ npi) ∨ (idx = -1 ∧ (obs.length : ℤ) ≤ npi)

theorem whileFold_inv {cnt : ℕ} {idx : ℤ} :
    ∀ (l : List (ℚ × ℕ)) (obs : List (Option ℚ × ℕ)) (npi : ℤ),
      PartInv obs npi cnt → (∀ e ∈ l, e.2 < cnt) → WhileArg obs npi idx →
      PartInv (l.foldl
          (fun st h => (pyInsert st.1 idx (some h.1, h.2), st.2 + 1)) (obs, npi)).1
        (l.foldl
          (fun st h => (pyInsert st.1 idx (some h.1, h.2), st.2 + 1)) (obs, npi)).2
        cnt := by
  intro l
  induction l with
  | nil => intro obs npi h _ _; exact h
  | cons x xs ih =>
    intro obs npi h htag harg
    simp only [List.foldl_cons]
    rcases harg with ⟨ha, hb⟩ | ⟨ha, hb⟩
    · exact ih _ _ (PartInv_insertP h ha hb (htag x (List.mem_cons_self x xs)))
        (fun e he => htag e (List.mem_cons_of_mem x he))
        (Or.inl ⟨ha, by omega⟩)
    · subst ha
      obtain ⟨hinv, hlen⟩ :=
        PartInv_insertNeg h hb (htag x (List.mem_cons_self x xs))
      exact ih _ _ hinv (fun e he => htag e (List.mem_cons_of_mem x he))
        (Or.inr ⟨rfl, hlen⟩)

theorem whileInsert_inv {cnt : ℕ} {idx : ℤ} {obs : List (Option ℚ × ℕ)}
    {npi : ℤ} {upd : List (ℚ × ℕ)}
    (h : PartInv obs npi cnt) (htag : ∀ e ∈ upd, e.2 < cnt)
    (harg : WhileArg obs npi idx) :
    PartInv (whileInsert idx obs npi upd).1 (whileInsert idx obs npi upd).2 cnt := by
  exact whileFold_inv upd.reverse obs npi h
    (fun e he => htag e (List.mem_reverse.mp he)) harg

theorem insertLoopF_inv {cnt : ℕ} :
    ∀ (fuel : ℕ) (obs : List (Option ℚ × ℕ)) (c : ℕ) (idx npi : ℤ)
      (held : ℚ × ℕ) (upd : List (ℚ × ℕ)),
      PartInv obs npi cnt → -1 ≤ idx → idx < npi → (c : ℤ) ≤ idx + 1 →
      held.2 < cnt → (∀ e ∈ upd, e.2 < cnt) →
      obs.length + upd.length + 1 ≤ fuel + c →
      PartInv (insertLoopF fuel obs c idx npi held upd).1
          (insertLoopF fuel obs c idx npi held upd).2.1 cnt ∧
        (∀ e ∈ (insertLoopF fuel obs c idx npi held upd).2.2.2, e.2 < cnt) ∧
        WhileArg (insertLoopF fuel obs c idx npi held upd).1
          (insertLoopF fuel obs c idx npi held upd).2.1
          (insertLoopF fuel obs c idx npi held upd).2.2.1 := by
  intro fuel
  induction fuel with
  | zero =>
    intro obs c idx npi held upd hinv hge hlt hc _ _ hfuel
    exfalso
    have hb := PartInv_bounds hinv
    omega
  | succ fuel ih =>
    intro obs c idx npi held upd hinv hge hlt hc hheld htag hfuel
    rw [insertLoopF]
    cases hg : obs.get? c with
    | none =>
      dsimp only
      rcases (by omega : idx = -1 ∨ 0 ≤ idx) with h | h
      · have hc0 : c = 0 := by omega
        subst hc0
        have hobs : obs = [] := by
          rcases obs with - | ⟨e, t⟩
          · rfl
          · exact absurd hg (by simp)
        subst hobs
        have hnpi0 : npi = 0 := by
          have hb := PartInv_bounds hinv
          simp at hb
          omega
        subst hnpi0
        subst h
        have hform : pyInsert ([] : List (Option ℚ × ℕ)) (-1)
            (some held.1, held.2) = [(some held.1, held.2)] := rfl
        rw [hform]
        refine ⟨⟨[(some held.1, held.2)], [], by simp, by simp, by simp, by simp,
          by simp, by simpa using hheld⟩, htag, Or.inr ⟨rfl, by simp⟩⟩
      · exact ⟨PartInv_insertP hinv h (by omega) hheld, htag, Or.inl ⟨h, by omega⟩⟩
    | some e =>
      dsimp only
      by_cases heq : idx + 1 = npi
      · rw [if_pos heq]
        dsimp only
        exact ⟨hinv, htag, Or.inl ⟨by omega, by omega⟩⟩
      · rw [if_neg heq]
        by_cases hlo : ltOpt held.1 e.1
        · rw [if_pos hlo]
          exact ih obs (c + 1) (idx + 1) npi held upd hinv (by omega) (by omega)
            (by push_cast; omega) hheld htag
            (by
              have : c < obs.length := (List.get?_eq_some.mp hg).1
              omega)
        · rw [if_neg hlo]
          have hinv1 : PartInv (pyInsert obs (idx + 1) (some held.1, held.2))
              (npi + 1) cnt :=
            PartInv_insertP hinv (by omega) (by omega) hheld
          cases hl : upd.getLast? with
          | none =>
            dsimp only
            exact ⟨hinv1, by simp, Or.inl ⟨by omega, by omega⟩⟩
          | some held1 =>
            dsimp only
            have hmem : held1 ∈ upd := by
              obtain ⟨ys, hys⟩ := List.getLast?_eq_some_iff.mp hl
              subst hys
              simp
            have hne : upd ≠ [] := by
              intro hh; rw [hh] at hl; exact absurd hl (by simp)
            have hulen : 0 < upd.length := List.length_pos.mpr hne
            exact ih (pyInsert obs (idx + 1) (some held.1, held.2)) (c + 1)
              (idx + 1 + 1) (npi + 1) held1 upd.dropLast hinv1 (by omega) (by omega)
              (by push_cast; omega) (htag held1 hmem)
              (fun e he => htag e (List.mem_of_mem_dropLast he))
              (by
                rw [pyInsert_length, List.length_dropLast]
                omega)

theorem updateBatch_inv (pz : ℚ → ℚ) (m : PRMemory ℕ) (ls : List ℚ)
    {cnt : ℕ} (h : MemInv m cnt) : MemInv (updateBatch pz m ls).1 cnt := by
  obtain ⟨hpart, hbi⟩ := h
  unfold updateBatch
  cases hB : m.batchIndices with
  | none => exact ⟨hpart, hbi⟩
  | some bi =>
    dsimp only
    by_cases hlen : ls.length ≠ bi.length
    · rw [if_pos hlen]
      exact ⟨hpart, hbi⟩
    · rw [if_neg hlen]
      cases hbu : buildUpdated pz m.observations bi ls with
      | none => exact ⟨hpart, hbi⟩
      | some u =>
        dsimp only
        obtain ⟨hnd, hrange⟩ := hbi bi hB
        have hperm := pySorted_perm (fun a b : ℤ => decide (b ≤ a)) bi
        have hdesc : (pySorted (fun a b : ℤ => decide (b ≤ a)) bi).Pairwise (· > ·) := by
          have h1 := pySorted_desc bi
          have h2 : (pySorted (fun a b : ℤ => decide (b ≤ a)) bi).Nodup :=
            hperm.nodup_iff.mpr hnd
          exact (h1.and h2).imp (by rintro a b ⟨x1, x2⟩; omega)
        have hrange2 : ∀ i ∈ pySorted (fun a b : ℤ => decide (b ≤ a)) bi,
            0 ≤ i ∧ i < (m.observations.length : ℤ) :=
          fun i hi => hrange i (hperm.mem_iff.mp hi)
        obtain ⟨hnone, hinv1⟩ := removeAll_inv _ m.observations
          m.nonePriorityIndex hpart hdesc hrange2
        rw [hnone]
        dsimp only
        have htagu : ∀ e ∈ u, e.2 < cnt := by
          refine buildUpdated_tags pz bi ls m.observations u hbu ?_
          obtain ⟨P, U, hPU, -, -, -, -, htag⟩ := hpart
          exact htag
        cases hgl : (pySorted (fun a b : ℚ × ℕ => decide (a.1 ≤ b.1)) u).getLast? with
        | none =>
          dsimp only
          refine ⟨hinv1, ?_⟩
          intro l hl
          exact absurd hl (by simp)
        | some held =>
          dsimp only
          have hpermu := pySorted_perm (fun a b : ℚ × ℕ => decide (a.1 ≤ b.1)) u
          have htags : ∀ e ∈ pySorted (fun a b : ℚ × ℕ => decide (a.1 ≤ b.1)) u,
              e.2 < cnt := fun e he => htagu e (hpermu.mem_iff.mp he)
          have hheld : held.2 < cnt := by
            refine htags held ?_
            obtain ⟨ys, hys⟩ := List.getLast?_eq_some_iff.mp hgl
            rw [hys]; simp
          have hb1 := PartInv_bounds hinv1
          have hmain := insertLoopF_inv
            ((removeAll m.observations m.nonePriorityIndex
                (pySorted (fun a b : ℤ => decide (b ≤ a)) bi)).1.length +
              (pySorted (fun a b : ℚ × ℕ => decide (a.1 ≤ b.1)) u).dropLast.length + 1 - 0)
            (removeAll m.observations m.nonePriorityIndex
              (pySorted (fun a b : ℤ => decide (b ≤ a)) bi)).1 0 (-1)
            (removeAll m.observations m.nonePriorityIndex
              (pySorted (fun a b : ℤ => decide (b ≤ a)) bi)).2.1 held
            (pySorted (fun a b : ℚ × ℕ => decide (a.1 ≤ b.1)) u).dropLast hinv1
            (by omega) (by omega) (by omega) hheld
            (fun e he => htags e (List.mem_of_mem_dropLast he)) (by omega)
          refine ⟨whileInsert_inv hmain.1 hmain.2.1 hmain.2.2, ?_⟩
          intro l hl
          exact absurd hl (by simp)

/-! ### add_observation preserves the invariant -/

/-- Appending a fresh unseen entry (tag `cnt`) to the end keeps the
partition with the tag bound raised. -/
theorem PartInv_append_unseen {obs : List (Option ℚ × ℕ)} {npi : ℤ}
    {cnt : ℕ} (h : PartInv obs npi cnt) :
    PartInv (obs ++ [(none, cnt)]) npi (cnt + 1) := by
  obtain ⟨P, U, rfl, hnpi, hP, hU, hord, htag⟩ := h
  refine ⟨P, U ++ [(none, cnt)], by simp, hnpi, hP, ?_, ?_, ?_⟩
  · intro e he
    rcases List.mem_append.mp he with h | h
    · exact hU e h
    · simp at h; subst h; rfl
  · rw [List.map_append, List.pairwise_append]
    refine ⟨hord, by simp, ?_⟩
    intro a ha b hb
    simp at hb
    subst hb
    obtain ⟨e, he, he2⟩ := List.mem_map.mp ha
    subst he2
    exact htag e (List.mem_append.mpr (Or.inr he))
  · intro e he
    rcases List.mem_append.mp he with h | h
    · exact Nat.lt_succ_of_lt (htag e h)
    · simp at h; subst h; simp

theorem addObservation_inv (m : PRMemory ℕ) (x : ℕ) (ig : Bool) {cnt : ℕ}
    (h : MemInv m cnt) :
    MemInv (addObservation (fun _ _ => cnt) m x ig).1 (cnt + 1) := by
  obtain ⟨hpart, hbi⟩ := h
  have hb := PartInv_bounds hpart
  unfold addObservation
  cases hL : m.lastObservation with
  | none =>
    exact ⟨PartInv_mono hpart (by omega), hbi⟩
  | some prev =>
    dsimp only
    by_cases hcap : m.observations.length < m.capacity
    · rw [if_pos hcap]
      refine ⟨PartInv_append_unseen hpart, ?_⟩
      intro l hl
      obtain ⟨hnd, hrange⟩ := hbi l hl
      refine ⟨hnd, fun i hi => ?_⟩
      have := hrange i hi
      simp only [List.length_append, List.length_cons, List.length_nil]
      omega
    · rw [if_neg hcap]
      by_cases hpos : 0 < m.nonePriorityIndex
      · rw [if_pos hpos]
        obtain ⟨hpyp, e, hget, hinv, hlen, hsome, -⟩ :=
          PartInv_pop hpart (i := m.nonePriorityIndex - 1) (by omega) (by omega)
        rw [hpyp]
        dsimp only
        have hinv2 : PartInv
            (m.observations.eraseIdx (m.nonePriorityIndex - 1).toNat)
            (m.nonePriorityIndex - 1) cnt := by
          have := hsome (by omega)
          rw [this, if_pos rfl] at hinv
          exact hinv
        refine ⟨PartInv_append_unseen hinv2, ?_⟩
        intro l hl
        obtain ⟨hnd, hrange⟩ := hbi l hl
        refine ⟨hnd, fun i hi => ?_⟩
        have := hrange i hi
        simp only [List.length_append, List.length_cons, List.length_nil]
        omega
      · rw [if_neg hpos]
        exact ⟨PartInv_mono hpart (by omega), hbi⟩

/-! ### get_batch preserves the invariant -/

theorem rouletteScan_lt {npi : ℤ} {s : ℚ} :
    ∀ (l : List (Option ℚ × ℕ)) (i : ℕ) (sample : ℚ) (j a : ℕ),
      rouletteScan npi s i l sample = some (j, a) → i ≤ j ∧ j < i + l.length := by
  intro l
  induction l with
  | nil => intro i sample j a h; exact absurd h (by simp [rouletteScan])
  | cons e rest ih =>
    intro i sample j a h
    obtain ⟨p?, b⟩ := e
    cases p? with
    | none => exact absurd h (by simp [rouletteScan])
    | some p =>
      rw [rouletteScan] at h
      try dsimp only at h
      by_cases hc : sample - p / s < 0 ∨ (i : ℤ) ≥ npi ∨ rest.isEmpty
      · rw [if_pos hc] at h
        simp only [Option.some.injEq, Prod.mk.injEq] at h
        obtain ⟨rfl, -⟩ := h
        simp
      · rw [if_neg hc] at h
        have := ih (i + 1) (sample - p / s) j a h
        constructor
        · omega
        · simp only [List.length_cons]
          omega

theorem rouletteLoop_spec {obs : List (Option ℚ × ℕ)} {npi : ℤ} {s : ℚ}
    {rng : RandSrc} {bi : List ℤ} :
    ∀ (fuel fc j a fc' : ℕ),
      rouletteLoop obs npi s rng bi fuel fc = some (j, a, fc') →
      (j : ℤ) ∉ bi ∧ j < obs.length := by
  intro fuel
  induction fuel with
  | zero => intro fc j a fc' h; exact absurd h (by simp [rouletteLoop])
  | succ fuel ih =>
    intro fc j a fc' h
    rw [rouletteLoop] at h
    cases hs : rouletteScan npi s 0 obs (rng.floats fc) with
    | none => rw [hs] at h; exact absurd h (by simp)
    | some ia =>
      obtain ⟨i, b⟩ := ia
      rw [hs] at h
      try dsimp only at h
      by_cases hm : (i : ℤ) ∈ bi
      · rw [if_pos hm] at h
        exact ih (fc + 1) j a fc' h
      · rw [if_neg hm] at h
        simp only [Option.some.injEq, Prod.mk.injEq] at h
        obtain ⟨rfl, -, -⟩ := h
        have := rouletteScan_lt obs 0 (rng.floats fc) i b hs
        exact ⟨hm, by omega⟩

theorem rejectLoop_spec {npi : ℕ} {rng : RandSrc} {bi : List ℤ}
    (hn : 0 < npi) :
    ∀ (fuel ic j ic' : ℕ), rejectLoop npi rng bi fuel ic = some (j, ic') →
      (j : ℤ) ∉ bi ∧ j < npi := by
  intro fuel
  induction fuel with
  | zero => intro ic j ic' h; exact absurd h (by simp [rejectLoop])
  | succ fuel ih =>
    intro ic j ic' h
    rw [rejectLoop] at h
    try dsimp only at h
    by_cases hm : ((rng.ints ic % npi : ℕ) : ℤ) ∈ bi
    · rw [if_pos hm] at h
      exact ih (ic + 1) j ic' h
    · rw [if_neg hm] at h
      simp only [Option.some.injEq, Prod.mk.injEq] at h
      obtain ⟨rfl, -⟩ := h
      exact ⟨hm, Nat.mod_lt _ hn⟩

/-- Loop invariant of `get_batch`'s sampling loop: the indices collected so
far are distinct, in range, and all below `not_sampled_index`, which never
falls below `none_priority_index`. -/
def DrawInv (m : PRMemory ℕ) (ds : DrawState ℕ) : Prop :=
  ds.bi.Nodup ∧ (∀ i ∈ ds.bi, 0 ≤ i ∧ i < (m.observations.length : ℤ)) ∧
    m.nonePriorityIndex ≤ ds.notSampled ∧ (∀ i ∈ ds.bi, i < ds.notSampled)

theorem drawOne_inv {m : PRMemory ℕ} (s : ℚ) (rng : RandSrc) (fuel : ℕ)
    {ds : DrawState ℕ} (hnpi : 0 ≤ m.nonePriorityIndex)
    (hlen : m.nonePriorityIndex ≤ (m.observations.length : ℤ))
    (h : DrawInv m ds) : DrawInv m (drawOne m s rng fuel ds).1 := by
  obtain ⟨hnd, hbound, hns, hlt⟩ := h
  unfold drawOne
  by_cases h1 : ds.notSampled < (m.observations.length : ℤ)
  · rw [if_pos h1]
    cases hp : pyGet m.observations ds.notSampled with
    | none => exact ⟨hnd, hbound, hns, hlt⟩
    | some e =>
      refine ⟨?_, ?_, ?_, ?_⟩ <;> try dsimp only
      · rw [List.nodup_append]
        refine ⟨hnd, by simp, ?_⟩
        intro i hi hj
        simp only [List.mem_singleton] at hj
        subst hj
        exact absurd (hlt _ hi) (lt_irrefl _)
      · intro i hi
        rcases List.mem_append.mp hi with hh | hh
        · exact hbound i hh
        · simp only [List.mem_singleton] at hh
          subst hh
          omega
      · omega
      · intro i hi
        rcases List.mem_append.mp hi with hh | hh
        · have := hlt i hh; omega
        · simp only [List.mem_singleton] at hh
          subst hh
          omega
  · rw [if_neg h1]
    by_cases h2 : m.capacity = 0
    · rw [if_pos h2]; exact ⟨hnd, hbound, hns, hlt⟩
    · rw [if_neg h2]
      by_cases h3 : s / (m.capacity : ℚ) < epsilon
      · rw [if_pos h3]
        by_cases h4 : m.nonePriorityIndex ≤ 0
        · rw [if_pos h4]; exact ⟨hnd, hbound, hns, hlt⟩
        · rw [if_neg h4]
          cases hr : rejectLoop m.nonePriorityIndex.toNat rng ds.bi fuel ds.ic with
          | none => exact ⟨hnd, hbound, hns, hlt⟩
          | some ji =>
            obtain ⟨j, ic1⟩ := ji
            obtain ⟨hjm, hjlt⟩ := rejectLoop_spec (by omega) fuel ds.ic j ic1 hr
            cases ho : ds.obsVar with
            | none => exact ⟨hnd, hbound, hns, hlt⟩
            | some a =>
              refine ⟨?_, ?_, ?_, ?_⟩ <;> try dsimp only
              · rw [List.nodup_append]
                refine ⟨hnd, by simp, ?_⟩
                intro i hi hj
                simp only [List.mem_singleton] at hj
                subst hj
                exact hjm hi
              · intro i hi
                rcases List.mem_append.mp hi with hh | hh
                · exact hbound i hh
                · simp only [List.mem_singleton] at hh
                  subst hh
                  omega
              · exact hns
              · intro i hi
                rcases List.mem_append.mp hi with hh | hh
                · exact hlt i hh
                · simp only [List.mem_singleton] at hh
                  subst hh
                  omega
      · rw [if_neg h3]
        cases hr : rouletteLoop m.observations m.nonePriorityIndex s rng ds.bi
            fuel ds.fc with
        | none => exact ⟨hnd, hbound, hns, hlt⟩
        | some jafc =>
          obtain ⟨j, a, fc1⟩ := jafc
          obtain ⟨hjm, hjlt⟩ := rouletteLoop_spec fuel ds.fc j a fc1 hr
          refine ⟨?_, ?_, ?_, ?_⟩ <;> try dsimp only
          · rw [List.nodup_append]
            refine ⟨hnd, by simp, ?_⟩
            intro i hi hj
            simp only [List.mem_singleton] at hj
            subst hj
            exact hjm hi
          · intro i hi
            rcases List.mem_append.mp hi with hh | hh
            · exact hbound i hh
            · simp only [List.mem_singleton] at hh
              subst hh
              omega
          · exact hns
          · intro i hi
            rcases List.mem_append.mp hi with hh | hh
            · exact hlt i hh
            · simp only [List.mem_singleton] at hh
              subst hh
              omega

theorem drawLoop_inv {m : PRMemory ℕ} (s : ℚ) (rng : RandSrc) (fuel : ℕ)
    (hnpi : 0 ≤ m.nonePriorityIndex)
    (hlen : m.nonePriorityIndex ≤ (m.observations.length : ℤ)) :
    ∀ (n : ℕ) (ds : DrawState ℕ), DrawInv m ds →
      DrawInv m (drawLoop m s rng fuel n ds).1 := by
  intro n
  induction n with
  | zero => intro ds h; exact h
  | succ n ih =>
    intro ds h
    rw [drawLoop]
    have hone := drawOne_inv s rng fuel hnpi hlen h
    cases hd : drawOne m s rng fuel ds with
    | mk ds1 err =>
      rw [hd] at hone
      cases err with
      | none => exact ih ds1 hone
      | some e => exact hone

theorem getBatch_inv (m : PRMemory ℕ) (bs : ℕ) (rng : RandSrc) (fuel : ℕ)
    {cnt : ℕ} (h : MemInv m cnt) : MemInv (getBatch m bs rng fuel).1 cnt := by
  obtain ⟨hpart, hbi⟩ := h
  have hb := PartInv_bounds hpart
  unfold getBatch
  by_cases hI : m.internalsSet = false
  · rw [if_pos hI]
    exact ⟨hpart, hbi⟩
  · rw [if_neg hI]
    have hD := @drawLoop_inv m (prioritySum m.observations) rng fuel
      (by omega) (by omega) bs
      { bi := [], notSampled := m.nonePriorityIndex, obsVar := none,
        fc := 0, ic := 0, out := [] }
      ⟨by simp, by simp, le_refl _, by simp⟩
    obtain ⟨hnd, hbound, -, -⟩ := hD
    refine ⟨hpart, ?_⟩
    intro l hl
    simp only [Option.some.injEq] at hl
    subst hl
    exact ⟨hnd, hbound⟩

/-! ### The invariant holds after every operation sequence -/

theorem initMem_inv (cap : ℕ) : MemInv (initMem cap) 0 :=
  ⟨⟨[], [], rfl, rfl, by simp, by simp, by simp, by simp [initMem]⟩,
    fun l hl => absurd hl (by simp [initMem])⟩

theorem stepOp_inv (pz : ℚ → ℚ) (st : PRMemory ℕ × ℕ)
    (h : MemInv st.1 st.2) :
    ∀ op : Op, MemInv (stepOp pz st op).1 (stepOp pz st op).2 := by
  intro op
  cases op with
  | add ig => exact addObservation_inv st.1 st.2 ig h
  | get bs rng fuel => exact getBatch_inv st.1 bs rng fuel h
  | update ls => exact updateBatch_inv pz st.1 ls h

theorem foldSteps_inv (pz : ℚ → ℚ) :
    ∀ (ops : List Op) (st : PRMemory ℕ × ℕ), MemInv st.1 st.2 →
      MemInv (ops.foldl (stepOp pz) st).1 (ops.foldl (stepOp pz) st).2 := by
  intro ops
  induction ops with
  | nil => intro st h; exact h
  | cons op ops ih =>
    intro st h
    exact ih (stepOp pz st op) (stepOp_inv pz st h op)

theorem runOps_inv (pz : ℚ → ℚ) (cap : ℕ) (ops : List Op) :
    MemInv (runOps pz cap ops) ((ops.foldl (stepOp pz) (initMem cap, 0)).2) :=
  foldSteps_inv pz ops (initMem cap, 0) (initMem_inv cap)

/-! ### Further facts used by the claims -/

theorem pyPos_lt {len : ℕ} {i : ℤ} {p : ℕ} (h : pyPos len i = some p) :
    p < len := by
  unfold pyPos at h
  by_cases h0 : 0 ≤ i
  · rw [if_pos h0] at h
    by_cases h1 : i < (len : ℤ)
    · rw [if_pos h1] at h
      simp only [Option.some.injEq] at h
      omega
    · rw [if_neg h1] at h
      exact absurd h (by simp)
  · rw [if_neg h0] at h
    by_cases h1 : 0 ≤ (len : ℤ) + i
    · rw [if_pos h1] at h
      simp only [Option.some.injEq] at h
      omega
    · rw [if_neg h1] at h
      exact absurd h (by simp)

/-- A successful `update_batch` leaves `batch_indices = None` (this is what
makes an immediately following `update_batch` fail). -/
theorem updateBatch_clears (pz : ℚ → ℚ) (m : PRMemory ℕ) (ls : List ℚ) :
    (updateBatch pz m ls).1.batchIndices = none ∨
      (updateBatch pz m ls).2 ≠ none := by
  unfold updateBatch
  cases hB : m.batchIndices with
  | none => exact Or.inr (by simp)
  | some bi =>
    dsimp only
    by_cases hlen : ls.length ≠ bi.length
    · rw [if_pos hlen]
      exact Or.inr (by simp)
    · rw [if_neg hlen]
      cases hbu : buildUpdated pz m.observations bi ls with
      | none => exact Or.inr (by simp)
      | some u =>
        dsimp only
        cases hrm : (removeAll m.observations m.nonePriorityIndex
            (pySorted (fun a b : ℤ => decide (b ≤ a)) bi)).2.2 with
        | some e => exact Or.inr (by simp)
        | none =>
          dsimp only
          cases hgl : (pySorted (fun a b : ℚ × ℕ => decide (a.1 ≤ b.1)) u).getLast? with
          | none => exact Or.inr (by simp)
          | some held => exact Or.inl rfl

/-- Method `add_observation` never pushes the store above the capacity it already
respects, and leaves `capacity` itself unchanged. -/
theorem addObservation_len (fin : ℕ → ℕ → ℕ) (m : PRMemory ℕ) (x : ℕ)
    (ig : Bool) (h : m.observations.length ≤ m.capacity) :
    (addObservation fin m x ig).1.observations.length ≤ m.capacity ∧
      (addObservation fin m x ig).1.capacity = m.capacity := by
  unfold addObservation
  cases hL : m.lastObservation with
  | none => exact ⟨h, rfl⟩
  | some prev =>
    dsimp only
    by_cases hcap : m.observations.length < m.capacity
    · rw [if_pos hcap]
      constructor
      · simp only [List.length_append, List.length_cons, List.length_nil]
        omega
      · rfl
    · rw [if_neg hcap]
      by_cases hpos : 0 < m.nonePriorityIndex
      · rw [if_pos hpos]
        cases hp : pyPos m.observations.length (m.nonePriorityIndex - 1) with
        | none => exact ⟨h, rfl⟩
        | some p =>
          dsimp only
          constructor
          · have hplt := pyPos_lt hp
            simp only [List.length_append, List.length_cons, List.length_nil,
              List.length_eraseIdx, if_pos hplt]
            omega
          · rfl
      · rw [if_neg hpos]
        exact ⟨h, rfl⟩

/-- On a full store, `add_observation` never changes the length. -/
theorem addObservation_len_full (fin : ℕ → ℕ → ℕ) (m : PRMemory ℕ) (x : ℕ)
    (ig : Bool) (h : m.observations.length = m.capacity) :
    (addObservation fin m x ig).1.observations.length = m.capacity := by
  unfold addObservation
  cases hL : m.lastObservation with
  | none => exact h
  | some prev =>
    dsimp only
    by_cases hcap : m.observations.length < m.capacity
    · omega
    · rw [if_neg hcap]
      by_cases hpos : 0 < m.nonePriorityIndex
      · rw [if_pos hpos]
        cases hp : pyPos m.observations.length (m.nonePriorityIndex - 1) with
        | none => exact h
        | some p =>
          dsimp only
          have hplt := pyPos_lt hp
          simp only [List.length_append, List.length_cons, List.length_nil,
            List.length_eraseIdx, if_pos hplt]
          omega
      · rw [if_neg hpos]
        exact h

theorem addsFold_len (pz : ℚ → ℚ) :
    ∀ (igs : List Bool) (st : PRMemory ℕ × ℕ),
      st.1.observations.length ≤ st.1.capacity →
      ((igs.map Op.add).foldl (stepOp pz) st).1.observations.length ≤
          ((igs.map Op.add).foldl (stepOp pz) st).1.capacity ∧
        ((igs.map Op.add).foldl (stepOp pz) st).1.capacity = st.1.capacity := by
  intro igs
  induction igs with
  | nil => intro st h; exact ⟨h, rfl⟩
  | cons ig igs ih =>
    intro st h
    simp only [List.map_cons, List.foldl_cons]
    obtain ⟨h1, h2⟩ := addObservation_len (fun _ _ => st.2) st.1 st.2 ig h
    have hstep : stepOp pz st (Op.add ig) =
        ((addObservation (fun _ _ => st.2) st.1 st.2 ig).1, st.2 + 1) := rfl
    have := ih (stepOp pz st (Op.add ig))
      (by rw [hstep]; dsimp only; rw [h2]; exact h1)
    refine ⟨this.1, ?_⟩
    rw [this.2, hstep]
    exact h2

/-! ### get_batch consumes the unseen suffix first -/

theorem drawOne_unseen_step (m : PRMemory ℕ) (s : ℚ) (rng : RandSrc)
    (fuel : ℕ) (ds : DrawState ℕ) (h0 : 0 ≤ ds.notSampled)
    (h1 : ds.notSampled < (m.observations.length : ℤ)) :
    ∃ e : Option ℚ × ℕ,
      drawOne m s rng fuel ds =
        ({ ds with
            obsVar := some e.2
            notSampled := ds.notSampled + 1
            out := ds.out ++ [e.2]
            bi := ds.bi ++ [ds.notSampled] }, none) := by
  have hp : pyPos m.observations.length ds.notSampled = some ds.notSampled.toNat := by
    unfold pyPos
    rw [if_pos h0, if_pos h1]
  obtain ⟨e, he⟩ : ∃ e, m.observations.get? ds.notSampled.toNat = some e := by
    cases hg : m.observations.get? ds.notSampled.toNat with
    | none => exact absurd (List.get?_eq_none.mp hg) (by omega)
    | some e => exact ⟨e, rfl⟩
  refine ⟨e, ?_⟩
  unfold drawOne
  rw [if_pos h1]
  have : pyGet m.observations ds.notSampled = some e := by
    unfold pyGet
    rw [hp]
    exact he
  rw [this]

theorem drawOne_bi_ext (m : PRMemory ℕ) (s : ℚ) (rng : RandSrc) (fuel : ℕ)
    (ds : DrawState ℕ) :
    ∃ r, (drawOne m s rng fuel ds).1.bi = ds.bi ++ r := by
  unfold drawOne
  by_cases h1 : ds.notSampled < (m.observations.length : ℤ)
  · rw [if_pos h1]
    cases hp : pyGet m.observations ds.notSampled with
    | none => exact ⟨[], by simp⟩
    | some e => exact ⟨[ds.notSampled], rfl⟩
  · rw [if_neg h1]
    by_cases h2 : m.capacity = 0
    · rw [if_pos h2]; exact ⟨[], by simp⟩
    · rw [if_neg h2]
      by_cases h3 : s / (m.capacity : ℚ) < epsilon
      · rw [if_pos h3]
        by_cases h4 : m.nonePriorityIndex ≤ 0
        · rw [if_pos h4]; exact ⟨[], by simp⟩
        · rw [if_neg h4]
          cases hr : rejectLoop m.nonePriorityIndex.toNat rng ds.bi fuel ds.ic with
          | none => exact ⟨[], by simp⟩
          | some ji =>
            obtain ⟨j, ic1⟩ := ji
            cases ho : ds.obsVar with
            | none => exact ⟨[], by simp⟩
            | some a => exact ⟨[(j : ℤ)], rfl⟩
      · rw [if_neg h3]
        cases hr : rouletteLoop m.observations m.nonePriorityIndex s rng ds.bi
            fuel ds.fc with
        | none => exact ⟨[], by simp⟩
        | some jafc =>
          obtain ⟨j, a, fc1⟩ := jafc
          exact ⟨[(j : ℤ)], rfl⟩

theorem drawLoop_bi_ext (m : PRMemory ℕ) (s : ℚ) (rng : RandSrc) (fuel : ℕ) :
    ∀ (n : ℕ) (ds : DrawState ℕ),
      ∃ r, (drawLoop m s rng fuel n ds).1.bi = ds.bi ++ r := by
  intro n
  induction n with
  | zero => intro ds; exact ⟨[], by simp [drawLoop]⟩
  | succ n ih =>
    intro ds
    rw [drawLoop]
    obtain ⟨r0, hr0⟩ := drawOne_bi_ext m s rng fuel ds
    cases hd : drawOne m s rng fuel ds with
    | mk ds1 err =>
      rw [hd] at hr0
      cases err with
      | none =>
        obtain ⟨r1, hr1⟩ := ih ds1
        exact ⟨r0 ++ r1, by rw [hr1, hr0, List.append_assoc]⟩
      | some e => exact ⟨r0, hr0⟩

theorem drawLoop_unseen (m : PRMemory ℕ) (s : ℚ) (rng : RandSrc) (fuel : ℕ) :
    ∀ (n : ℕ) (ds : DrawState ℕ), 0 ≤ ds.notSampled →
      ∃ rest, (drawLoop m s rng fuel n ds).1.bi =
        ds.bi ++ (List.range' ds.notSampled.toNat
          (min n (m.observations.length - ds.notSampled.toNat))).map
            (fun k => (k : ℤ)) ++ rest := by
  intro n
  induction n with
  | zero =>
    intro ds h0
    exact ⟨[], by simp [drawLoop]⟩
  | succ n ih =>
    intro ds h0
    by_cases hl : ds.notSampled < (m.observations.length : ℤ)
    · obtain ⟨e, he⟩ := drawOne_unseen_step m s rng fuel ds h0 hl
      rw [drawLoop, he]
      obtain ⟨rest, hrest⟩ := ih
        { ds with
            obsVar := some e.2
            notSampled := ds.notSampled + 1
            out := ds.out ++ [e.2]
            bi := ds.bi ++ [ds.notSampled] } (by dsimp only; omega)
      refine ⟨rest, ?_⟩
      rw [hrest]
      dsimp only
      have htn : (ds.notSampled + 1).toNat = ds.notSampled.toNat + 1 := by omega
      have hmin : min (n + 1) (m.observations.length - ds.notSampled.toNat) =
          min n (m.observations.length - (ds.notSampled.toNat + 1)) + 1 := by
        omega
      rw [htn, hmin, List.range'_succ]
      simp [Int.toNat_of_nonneg h0, List.append_assoc]
    · have hmin : min (n + 1) (m.observations.length - ds.notSampled.toNat) = 0 := by
        omega
      rw [hmin]
      obtain ⟨r, hr⟩ := drawLoop_bi_ext m s rng fuel (n + 1) ds
      exact ⟨r, by simpa using hr⟩

/-! ### Concrete operation sequences used by the claims

All of them stay on the deterministic unseen-entry path of `get_batch`, so
the random oracle is never consulted. -/

/-- A dummy oracle (never consulted by the runs below). -/
def rngZero : RandSrc := ⟨fun _ => 0, fun _ => 0⟩

/-- An `add_observation` call with a non-`None` `internal`. -/
def opAdd : Op := .add true

/-- Capacity 4: five adds finalize transitions tagged 1-4 (all unseen),
`get_batch(4)` samples all of them, `update_batch([9,5,4,3])` assigns
priorities. -/
def runA : PRMemory ℕ :=
  runOps id 4 [opAdd, opAdd, opAdd, opAdd, opAdd, .get 4 rngZero 100,
    .update [9, 5, 4, 3]]

/-- Capacity 4, five adds: a full store of four unseen finalized
transitions with a pending observation. -/
def runB : PRMemory ℕ :=
  runOps id 4 [opAdd, opAdd, opAdd, opAdd, opAdd]

/-- Capacity 2: two finalized transitions, both sampled, then
`update_batch([10.0, 0.1])` with `prioritization_weight = 1.0`
(`loss ** 1.0 = loss`, so the priority map is the identity). -/
def runC : PRMemory ℕ :=
  runOps id 2 [opAdd, opAdd, opAdd, .get 2 rngZero 100,
    .update [10, mkRat 1 10]]

/-- Capacity 3: three unseen finalized transitions (tags 1,2,3), then
`get_batch(2)` samples indices 0 and 1. -/
def runD1 : PRMemory ℕ :=
  runOps id 3 [opAdd, opAdd, opAdd, opAdd, .get 2 rngZero 100]

/-- The state `runD1` followed by `update_batch([5.0, 3.0])`. -/
def runD2 : PRMemory ℕ := (updateBatch id runD1 [5, 3]).1

/-- Capacity 10 with ten unseen finalized transitions (tags 1-10). -/
def runE : PRMemory ℕ :=
  runOps id 10 [opAdd, opAdd, opAdd, opAdd, opAdd, opAdd, opAdd, opAdd,
    opAdd, opAdd, opAdd]

/-! ### The claims -/

/-- Claim C1, counterexample: after the operation sequence of `runA`
(adds, one full batch, one update), `none_priority_index = 4` but the
entries at indices `[0, 4)` all carry a priority that is not `None`
(5, 4, 3, 9 — not sorted in either direction), refuting the claimed
partition (unseen prefix / ascending prioritized suffix) at a concrete
reachable state. -/
theorem C1_counterexample :
    runA.nonePriorityIndex = 4 ∧
    runA.observations = [(some 5, 2), (some 4, 3), (some 3, 4), (some 9, 1)] ∧
    ¬ (∀ e ∈ runA.observations.take runA.nonePriorityIndex.toNat,
        e.1 = none) := by
  decide

/-- Claim C1, amended: after any sequence of `add_observation`,
`get_batch` and `update_batch` operations (any capacity, any priority map,
any oracles), `0 ≤ none_priority_index ≤ len(observations)`, the entries at
indices `[0, none_priority_index)` all have a non-`None` priority, and the
entries at `[none_priority_index, len)` have priority `None` and are the
unseen entries in insertion order (their insertion tags strictly
increase).  This is the mirror image of the claimed partition; no sortedness
of the prioritized region holds (see the counterexample). -/
theorem C1_partition_invariant (pz : ℚ → ℚ) (cap : ℕ) (ops : List Op) :
    0 ≤ (runOps pz cap ops).nonePriorityIndex ∧
    (runOps pz cap ops).nonePriorityIndex ≤
      ((runOps pz cap ops).observations.length : ℤ) ∧
    (∀ e ∈ (runOps pz cap ops).observations.take
        (runOps pz cap ops).nonePriorityIndex.toNat, e.1 ≠ none) ∧
    (∀ e ∈ (runOps pz cap ops).observations.drop
        (runOps pz cap ops).nonePriorityIndex.toNat, e.1 = none) ∧
    (((runOps pz cap ops).observations.drop
        (runOps pz cap ops).nonePriorityIndex.toNat).map Prod.snd).Pairwise
      (· < ·) := by
  obtain ⟨⟨P, U, hPU, hnpi, hP, hU, hord, -⟩, -⟩ := runOps_inv pz cap ops
  have htn : (runOps pz cap ops).nonePriorityIndex.toNat = P.length := by omega
  refine ⟨by omega, ?_, ?_, ?_, ?_⟩
  · rw [hPU]
    simp only [List.length_append]
    omega
  · rw [hPU, htn, List.take_left]
    exact hP
  · rw [hPU, htn, List.drop_left]
    exact hU
  · rw [hPU, htn, List.drop_left]
    exact hord

/-- Claim C2, counterexample: a store of capacity 4 holding 4 unseen
finalized transitions, on the `add_observation` that finalizes a 5th,
raises "Memory contains only unseen observations." and evicts nothing —
the transition at index 0 is still there and the new one is not appended —
refuting the claimed eviction of the oldest unseen entry. -/
theorem C2_counterexample :
    runB.capacity = 4 ∧
    runB.observations.length = 4 ∧
    (∀ e ∈ runB.observations, e.1 = none) ∧
    runB.lastObservation = some 4 ∧
    (addObservation (fun _ _ => 5) runB 5 true).2 =
      some "Memory contains only unseen observations." ∧
    (addObservation (fun _ _ => 5) runB 5 true).1.observations =
      runB.observations := by
  decide

/-- Claim C2, amended: when a finalizing `add_observation` hits a full
store that has at least one prioritized entry, the entry at index
`none_priority_index - 1` (the last entry of the prioritized prefix) is
evicted, the new transition is appended as unseen at the end, all other
entries are preserved, and `none_priority_index` decreases by one; a full
store of only unseen entries (the capacity-4 scenario) instead fails. -/
theorem C2_evict_amended :
    (∀ (m : PRMemory ℕ) (fin : ℕ → ℕ → ℕ) (x : ℕ) (ig : Bool) (prev : ℕ),
      m.lastObservation = some prev →
      m.observations.length = m.capacity →
      0 < m.nonePriorityIndex →
      m.nonePriorityIndex ≤ (m.observations.length : ℤ) →
      (addObservation fin m x ig).2 = none ∧
        (addObservation fin m x ig).1.observations =
          m.observations.eraseIdx (m.nonePriorityIndex - 1).toNat ++
            [(none, fin prev x)] ∧
        (addObservation fin m x ig).1.nonePriorityIndex =
          m.nonePriorityIndex - 1) ∧
    (addObservation (fun _ _ => 5) runB 5 true).2 =
      some "Memory contains only unseen observations." := by
  constructor
  · intro m fin x ig prev hL hfull hpos hle
    unfold addObservation
    dsimp only
    rw [hL]
    dsimp only
    rw [if_neg (by omega)]
    rw [if_pos hpos]
    have hpy : pyPos m.observations.length (m.nonePriorityIndex - 1) =
        some (m.nonePriorityIndex - 1).toNat := by
      unfold pyPos
      rw [if_pos (by omega), if_pos (by omega)]
    rw [hpy]
    exact ⟨rfl, rfl, rfl⟩
  · decide

theorem C2_evict_amended_witness :
    (addObservation (fun _ _ => 99) runC 99 true).2 = none ∧
    (addObservation (fun _ _ => 99) runC 99 true).1.observations =
      runC.observations.eraseIdx (runC.nonePriorityIndex - 1).toNat ++
        [(none, 99)] ∧
    (addObservation (fun _ _ => 99) runC 99 true).1.nonePriorityIndex =
      runC.nonePriorityIndex - 1 :=
  C2_evict_amended.1 runC (fun _ _ => 99) 99 true 2 (by decide) (by decide)
    (by decide) (by decide)

/-- Claim C3, counterexample: the store `runC` is at capacity and contains
no unseen (priority=None) entry at all, yet `add_observation` succeeds
(evicting a prioritized entry) instead of failing with a
capacity-exhaustion error; together with the `runB` scenario (where
insertion fails although only unseen entries exist) this refutes both
directions of the claim. -/
theorem C3_counterexample :
    runC.observations.length = runC.capacity ∧
    (∀ e ∈ runC.observations, e.1 ≠ none) ∧
    runC.lastObservation = some 2 ∧
    (addObservation (fun _ _ => 99) runC 99 true).2 = none ∧
    (∀ e ∈ runB.observations, e.1 = none) ∧
    runB.observations.length = runB.capacity ∧
    runB.lastObservation = some 4 ∧
    (addObservation (fun _ _ => 5) runB 5 true).2 ≠ none := by
  decide

/-- Claim C3, amended: a finalizing `add_observation` on a full store fails
(with "Memory contains only unseen observations.", leaving observations,
`none_priority_index` and the pending observation unchanged) exactly when
`none_priority_index ≤ 0`, i.e. when the store holds no prioritized entry
(every entry is unseen); whenever a prioritized entry exists
(`none_priority_index > 0`), insertion succeeds. -/
theorem C3_capacity_error_amended :
    (∀ (m : PRMemory ℕ) (fin : ℕ → ℕ → ℕ) (x : ℕ) (ig : Bool) (prev : ℕ),
      m.lastObservation = some prev →
      m.observations.length = m.capacity →
      m.nonePriorityIndex ≤ 0 →
      (addObservation fin m x ig).2 =
        some "Memory contains only unseen observations." ∧
        (addObservation fin m x ig).1.observations = m.observations ∧
        (addObservation fin m x ig).1.nonePriorityIndex =
          m.nonePriorityIndex ∧
        (addObservation fin m x ig).1.lastObservation = m.lastObservation) ∧
    (∀ (m : PRMemory ℕ) (fin : ℕ → ℕ → ℕ) (x : ℕ) (ig : Bool) (prev : ℕ),
      m.lastObservation = some prev →
      m.observations.length = m.capacity →
      0 < m.nonePriorityIndex →
      m.nonePriorityIndex ≤ (m.observations.length : ℤ) →
      (addObservation fin m x ig).2 = none) := by
  constructor
  · intro m fin x ig prev hL hfull hzero
    unfold addObservation
    dsimp only
    rw [hL]
    dsimp only
    rw [if_neg (by omega), if_neg (by omega)]
    exact ⟨rfl, rfl, rfl, rfl⟩
  · intro m fin x ig prev hL hfull hpos hle
    unfold addObservation
    dsimp only
    rw [hL]
    dsimp only
    rw [if_neg (by omega), if_pos hpos]
    have hpy : pyPos m.observations.length (m.nonePriorityIndex - 1) =
        some (m.nonePriorityIndex - 1).toNat := by
      unfold pyPos
      rw [if_pos (by omega), if_pos (by omega)]
    rw [hpy]

theorem C3_capacity_error_amended_witness :
    ((addObservation (fun _ _ => 5) runB 5 true).2 =
      some "Memory contains only unseen observations." ∧
      (addObservation (fun _ _ => 5) runB 5 true).1.observations =
        runB.observations ∧
      (addObservation (fun _ _ => 5) runB 5 true).1.nonePriorityIndex =
        runB.nonePriorityIndex ∧
      (addObservation (fun _ _ => 5) runB 5 true).1.lastObservation =
        runB.lastObservation) ∧
    (addObservation (fun _ _ => 99) runC 99 true).2 = none :=
  ⟨C3_capacity_error_amended.1 runB (fun _ _ => 5) 5 true 4 (by decide)
      (by decide) (by decide),
    C3_capacity_error_amended.2 runC (fun _ _ => 99) 99 true 2 (by decide)
      (by decide) (by decide) (by decide)⟩

/-- Claim C4, code evaluation at the failing input: `runD1` holds three
transitions (tags 1,2,3) and `get_batch(2)` sampled indices 0 and 1; the
following successful `update_batch([5.0, 3.0])` leaves only two entries —
the transition with tag 1 (loss 5.0, the highest assigned priority) has
been dropped instead of being reinserted, so a sampled transition is absent
and the total count shrank from 3 to 2. -/
theorem C4_update_drops_entry :
    runD1.observations.length = 3 ∧
    runD1.batchIndices = some [0, 1] ∧
    (updateBatch id runD1 [5, 3]).2 = none ∧
    runD2.observations = [(some 3, 2), (none, 3)] ∧
    runD2.observations.length = 2 ∧
    (∀ e ∈ runD2.observations, e.2 ≠ 1) ∧
    (∀ e ∈ runD2.observations, e ≠ (some 5, 1)) := by
  decide

/-- Helper: `update_batch` without an outstanding batch fails, leaving the
store untouched. -/
theorem updateBatch_noBatch (pz : ℚ → ℚ) (m : PRMemory ℕ) (ls : List ℚ)
    (h : m.batchIndices = none) :
    updateBatch pz m ls =
      (m, some "Need to call get_batch before each update_batch call.") := by
  unfold updateBatch
  rw [h]

/-- Claim C5, confirmed: `update_batch` without any preceding `get_batch`
(no outstanding `batch_indices`) fails with the protocol error and leaves
the store unchanged; with an outstanding batch but a loss vector of the
wrong length it fails with the length error and leaves the store
unchanged; and after any successful `update_batch` (which clears
`batch_indices`) an immediate second `update_batch` fails with the
protocol error and leaves the store unchanged. -/
theorem C5_update_protocol :
    (∀ (pz : ℚ → ℚ) (m : PRMemory ℕ) (ls : List ℚ),
      m.batchIndices = none →
      updateBatch pz m ls =
        (m, some "Need to call get_batch before each update_batch call.")) ∧
    (∀ (pz : ℚ → ℚ) (m : PRMemory ℕ) (ls : List ℚ) (bi : List ℤ),
      m.batchIndices = some bi → ls.length ≠ bi.length →
      updateBatch pz m ls =
        (m, some "For all instances a loss value has to be provided.")) ∧
    (∀ (pz pz2 : ℚ → ℚ) (m : PRMemory ℕ) (ls ls2 : List ℚ),
      (updateBatch pz m ls).2 = none →
      updateBatch pz2 (updateBatch pz m ls).1 ls2 =
        ((updateBatch pz m ls).1,
          some "Need to call get_batch before each update_batch call.")) := by
  refine ⟨?_, ?_, ?_⟩
  · exact updateBatch_noBatch
  · intro pz m ls bi h hne
    unfold updateBatch
    rw [h]
    dsimp only
    rw [if_pos hne]
  · intro pz pz2 m ls ls2 h
    have hc := (updateBatch_clears pz m ls).resolve_right (by rw [h]; simp)
    exact updateBatch_noBatch pz2 _ ls2 hc

theorem C5_update_protocol_witness :
    updateBatch id (initMem 3) [1] =
      (initMem 3, some "Need to call get_batch before each update_batch call.") ∧
    updateBatch id runD1 [1] =
      (runD1, some "For all instances a loss value has to be provided.") ∧
    updateBatch id (updateBatch id runD1 [5, 3]).1 [1] =
      ((updateBatch id runD1 [5, 3]).1,
        some "Need to call get_batch before each update_batch call.") :=
  ⟨C5_update_protocol.1 id (initMem 3) [1] rfl,
    C5_update_protocol.2.1 id runD1 [1] [0, 1] (by decide) (by decide),
    C5_update_protocol.2.2 id id runD1 [5, 3] [1] (by decide)⟩

/-- Claim C6, confirmed: on any store satisfying the invariant (with
`internals_config` set), every `get_batch` call first draws the
not-yet-drawn unseen entries in insertion order — the collected
`batch_indices` start with `none_priority_index, none_priority_index + 1,
…` for `min(batch_size, number of unseen entries)` draws — before any
priority-based or fallback sampling contributes the remainder.  In
particular, on a capacity-10 store holding 10 unseen finalized transitions,
the first `get_batch(10)` returns exactly the indices 0-9, each exactly
once, with the 10 unseen observations in insertion order. -/
theorem C6_unseen_first :
    (∀ (m : PRMemory ℕ) (bs : ℕ) (rng : RandSrc) (fuel cnt : ℕ),
      MemInv m cnt → m.internalsSet = true →
      ∃ rest, (getBatch m bs rng fuel).1.batchIndices =
        some ((List.range' m.nonePriorityIndex.toNat
            (min bs (m.observations.length -
              m.nonePriorityIndex.toNat))).map (fun k => (k : ℤ)) ++ rest)) ∧
    ((getBatch runE 10 rngZero 100).1.batchIndices =
        some [0, 1, 2, 3, 4, 5, 6, 7, 8, 9] ∧
      (getBatch runE 10 rngZero 100).2.1 = none ∧
      (getBatch runE 10 rngZero 100).2.2 = [1, 2, 3, 4, 5, 6, 7, 8, 9, 10] ∧
      ([0, 1, 2, 3, 4, 5, 6, 7, 8, 9] : List ℤ).Nodup ∧
      runE.observations.length = 10 ∧
      runE.nonePriorityIndex = 0 ∧
      (∀ e ∈ runE.observations, e.1 = none)) := by
  constructor
  · intro m bs rng fuel cnt hinv hset
    obtain ⟨hpart, -⟩ := hinv
    have hb := PartInv_bounds hpart
    unfold getBatch
    rw [if_neg (by simp [hset])]
    obtain ⟨rest, hrest⟩ := drawLoop_unseen m (prioritySum m.observations)
      rng fuel bs
      { bi := [], notSampled := m.nonePriorityIndex, obsVar := none,
        fc := 0, ic := 0, out := [] } (by dsimp only; omega)
    refine ⟨rest, ?_⟩
    dsimp only
    rw [hrest]
    simp
  · decide

theorem C6_unseen_first_witness :
    ∃ rest, (getBatch runE 10 rngZero 100).1.batchIndices =
      some ((List.range' runE.nonePriorityIndex.toNat
          (min 10 (runE.observations.length -
            runE.nonePriorityIndex.toNat))).map (fun k => (k : ℤ)) ++ rest) :=
  C6_unseen_first.1 runE 10 rngZero 100
    ((([opAdd, opAdd, opAdd, opAdd, opAdd, opAdd, opAdd, opAdd, opAdd,
        opAdd, opAdd] : List Op).foldl (stepOp id) (initMem 10, 0)).2)
    (runOps_inv id 10 [opAdd, opAdd, opAdd, opAdd, opAdd, opAdd, opAdd,
      opAdd, opAdd, opAdd, opAdd])
    (by decide)

/-- Claim C7, confirmed: the `updated` list built by `update_batch` pairs
each sampled observation with the priority `pz loss` where `pz` models
`loss ↦ loss ** prioritization_weight` — the assigned priorities are
exactly the image of the provided losses.  Concretely, with
`prioritization_weight = 1.0` (so `pz = id`), after `update_batch([10.0,
0.1])` on the 2-item batch of `runC`, the entry with loss 10.0 carries the
higher priority (10 > 1/10) and sits at index 1, after the loss-0.1 entry
at index 0, inside the prioritized region `[0, none_priority_index)`. -/
theorem C7_priority_assignment :
    (∀ (pz : ℚ → ℚ) (obs : List (Option ℚ × ℕ)) (bi : List ℤ)
      (ls : List ℚ) (u : List (ℚ × ℕ)),
      buildUpdated pz obs bi ls = some u →
      u.map Prod.fst = (ls.take bi.length).map pz) ∧
    (runC.observations = [(some (mkRat 1 10), 2), (some 10, 1)] ∧
      runC.nonePriorityIndex = 2 ∧
      (mkRat 1 10 : ℚ) = 1 / 10 ∧
      (1 / 10 : ℚ) < 10) := by
  constructor
  · intro pz obs bi
    induction bi with
    | nil =>
      intro ls u h
      cases ls <;> simp only [buildUpdated, Option.some.injEq] at h <;>
        subst h <;> simp
    | cons i is ih =>
      intro ls u h
      cases ls with
      | nil =>
        simp only [buildUpdated, Option.some.injEq] at h
        subst h
        simp
      | cons l rest =>
        simp only [buildUpdated] at h
        cases hg : pyGet obs i with
        | none => rw [hg] at h; exact absurd h (by simp)
        | some e =>
          rw [hg] at h
          cases hr : buildUpdated pz obs is rest with
          | none => rw [hr] at h; exact absurd h (by simp)
          | some u' =>
            rw [hr] at h
            simp only [Option.map_some', Option.some.injEq] at h
            subst h
            simp only [List.map_cons, List.length_cons, List.take_cons_succ]
            rw [ih rest u' hr]
  · constructor
    · decide
    · refine ⟨by decide, by norm_num [mkRat], by norm_num⟩

theorem C7_priority_assignment_witness :
    ([(3, 7)] : List (ℚ × ℕ)).map Prod.fst =
      (([3] : List ℚ).take ([(0 : ℤ)].length)).map id :=
  C7_priority_assignment.1 id [(none, 7)] [(0 : ℤ)] [3] [(3, 7)] (by decide)

/-- Claim C8, confirmed: starting from a fresh store, after every sequence
of `add_observation` calls `len(observations) ≤ capacity` holds, and on any
store already at capacity a further `add_observation` leaves the length
exactly at capacity (insertion never increases it past the bound). -/
theorem C8_capacity :
    (∀ (pz : ℚ → ℚ) (cap : ℕ) (igs : List Bool),
      (runOps pz cap (igs.map Op.add)).observations.length ≤ cap) ∧
    (∀ (fin : ℕ → ℕ → ℕ) (m : PRMemory ℕ) (x : ℕ) (ig : Bool),
      m.observations.length = m.capacity →
      (addObservation fin m x ig).1.observations.length = m.capacity) := by
  constructor
  · intro pz cap igs
    have h := addsFold_len pz igs (initMem cap, 0) (by simp [initMem])
    have h2 : ((igs.map Op.add).foldl (stepOp pz) (initMem cap, 0)).1.capacity = cap :=
      h.2
    have h1 := h.1
    unfold runOps
    omega
  · exact addObservation_len_full

theorem C8_capacity_witness :
    (runOps id 4 ([true, true, true, true, true, true].map Op.add)).observations.length ≤ 4 ∧
    (addObservation (fun _ _ => 0) runB 0 true).1.observations.length =
      runB.capacity :=
  ⟨C8_capacity.1 id 4 [true, true, true, true, true, true],
    C8_capacity.2 (fun _ _ => 0) runB 0 true (by decide)⟩

/-- Claim C9, code evaluation at the failing input: with discount γ = 1/2,
a one-step batch with reward 1, terminal = True and baseline value
V(s_0) = 2, the code's GAE advantage is [1] for gae_lambda = 0 as well as
for gae_lambda = 1, whereas the one-step TD residual
δ_0 = r_0 + γ·V(s_1)·[not terminal] − V(s_0) is [-1] and
return − baseline is [-1]: the code's `td_residuals` drop the −V(s_t) term
at terminal (and final) indices, so neither claimed reduction holds. -/
theorem C9_gae_eval :
    gaeAdvantage (1 / 2) 0 [1] [true] [2] = [1] ∧
    tdResidualSpec (1 / 2) [1] [true] [2] = [-1] ∧
    gaeAdvantage (1 / 2) 1 [1] [true] [2] = [1] ∧
    returnMinusBaseline (1 / 2) [1] [true] [2] = [-1] ∧
    ((1 : ℚ) ≠ -1) := by
  refine ⟨?_, ?_, ?_, ?_, by norm_num⟩ <;>
    norm_num [gaeAdvantage, cumulativeDiscount, tdResiduals, tdResidualSpec,
      returnMinusBaseline, List.range_succ]

/-- Claim C10, confirmed: DQFD construction derives
`demo_batch_size = int(p·batch_size/(1−p))`, which for an expert-sampling
ratio `0 ≤ p < 1` and nonnegative batch size equals
`⌊p·batch_size/(1−p)⌋`; construction succeeds (the assertion passes) if
and only if the derived size is strictly positive, which happens exactly
when `p·batch_size/(1−p) ≥ 1`. -/
theorem C10_dqfd_demo_batch :
    (∀ p b : ℚ, 0 ≤ p → p < 1 → 0 ≤ b →
      demoBatchSize p b = ⌊p * b / (1 - p)⌋) ∧
    (∀ p b : ℚ, (dqfdDemoSetup p b).isOk = true ↔ 0 < demoBatchSize p b) ∧
    (∀ p b : ℚ, 0 < demoBatchSize p b ↔ 1 ≤ p * b / (1 - p)) := by
  refine ⟨?_, ?_, ?_⟩
  · intro p b hp hp1 hb
    unfold demoBatchSize ratTrunc
    rw [if_pos (div_nonneg (mul_nonneg hp hb) (by linarith))]
  · intro p b
    unfold dqfdDemoSetup
    by_cases h : 0 < demoBatchSize p b
    · rw [if_pos h]
      simp [Except.isOk, Except.toBool, h]
    · rw [if_neg h]
      simp [Except.isOk, Except.toBool, h]
  · intro p b
    unfold demoBatchSize ratTrunc
    by_cases hq : 0 ≤ p * b / (1 - p)
    · rw [if_pos hq]
      rw [Int.lt_iff_add_one_le]
      simp [Int.le_floor]
    · rw [if_neg hq]
      push_neg at hq
      constructor
      · intro hcon
        exfalso
        have h1 : 0 ≤ ⌊-(p * b / (1 - p))⌋ :=
          Int.floor_nonneg.mpr (by linarith)
        omega
      · intro hcon
        linarith

theorem C10_dqfd_demo_batch_witness :
    demoBatchSize (1 / 2) 3 = ⌊(1 / 2 : ℚ) * 3 / (1 - 1 / 2)⌋ ∧
    ((dqfdDemoSetup (1 / 2) 3).isOk = true ↔ 0 < demoBatchSize (1 / 2) 3) ∧
    (0 < demoBatchSize (1 / 100) 10 ↔
      1 ≤ (1 / 100 : ℚ) * 10 / (1 - 1 / 100)) :=
  ⟨C10_dqfd_demo_batch.1 (1 / 2) 3 (by norm_num) (by norm_num) (by norm_num),
    C10_dqfd_demo_batch.2.1 (1 / 2) 3,
    C10_dqfd_demo_batch.2.2 (1 / 100) 10⟩

end Tensorforce
